import Mathlib

/-!
Verification development for the `planer` exam-scheduling core.

The Rust sources are shallowly embedded:
* `chrono::DateTime<Utc>` and `chrono::Duration` become `Int` (seconds);
  `DateTime + Duration` is integer addition and the chrono orderings are the
  integer order, which is all the source uses.
* `Arc<Mutex<T>>` ownership is modelled by a heap: an association list from
  allocation identifiers (`Nat`) to values.  Holding an `Arc` corresponds to
  its allocation id being present in the heap; `Weak<T>` is an optional
  allocation id; `Weak::upgrade` succeeds exactly when the id is still in the
  heap.  Locking a live `Arc<Mutex<T>>` is reading the heap at its id.
* Rust panics (`unwrap` on `None`, out-of-bounds indexing) are modelled by
  `Option`-valued functions returning `none`.
* `uuid::Uuid` becomes `Nat`.
-/

namespace Planer

abbrev Uuid := Nat

/-- A heap of live `Arc` allocations: allocation id to stored value. -/
abbrev Heap (α : Type) := List (Nat × α)

/-- Read the value stored at allocation id `i` (first entry wins). -/
def hget {α : Type} : Heap α → Nat → Option α
  | [], _ => none
  | p :: t, i => if p.1 = i then some p.2 else hget t i

/-- Mutate the value stored at allocation id `i` (models writing through
`Arc<Mutex<_>>`: the domain of the heap never changes). -/
def hset {α : Type} (h : Heap α) (i : Nat) (f : α → α) : Heap α :=
  h.map (fun p => if p.1 = i then (p.1, f p.2) else p)

/-- `UuidRef<T>` from `src/planer/uuid_ref.rs`: a weak handle (`item`, the
allocation id of the target or `none` for `Weak::new()`) plus the target's
persistent identifier (`uuid`). -/
structure UuidRef where
  item : Option Nat
  uuid : Uuid
deriving DecidableEq, Repr

namespace UuidRef

/-- `UuidRef::new`: capture the allocation id of a live `Arc` together with
the target's identifier. -/
def new (i : Nat) (u : Uuid) : UuidRef := { item := some i, uuid := u }

/-- `UuidRef::null`. -/
def null : UuidRef := { item := none, uuid := 0 }

/-- `UuidRef::get`, i.e. `Weak::upgrade`: returns the `Arc` (its allocation
id) when the target allocation is still live in heap `h`. -/
def get {α : Type} (r : UuidRef) (h : Heap α) : Option Nat :=
  r.item.bind (fun i => if (hget h i).isSome then some i else none)

/-- Upgrade and lock in one step: the current value of the target. -/
def deref {α : Type} (r : UuidRef) (h : Heap α) : Option α :=
  (r.get h).bind (hget h)

/-- `UuidRef::revalidate`: scan the authoritative collection (a list of live
allocation ids into heap `h`) for the first element whose identifier matches;
when found, re-attach the weak handle to it.  When no element matches, the
reference is returned unchanged. -/
def revalidate {α : Type} (r : UuidRef) (asUuid : α → Uuid) (data : List Nat)
    (h : Heap α) : UuidRef :=
  match data.find? (fun i => (hget h i).map asUuid == some r.uuid) with
  | some i => { r with item := some i }
  | none => r

end UuidRef

/-- `Event<T>` from `src/planer/calendar.rs`, with the payload fixed to
`UuidRef` (the repository only instantiates `T = UuidRef<Mutex<Exam>>`). -/
structure Event where
  start : Int
  duration : Int
  data : UuidRef
deriving DecidableEq, Repr

namespace Event

/-- `Event::new`. -/
def new (start : Int) (duration : Int) (data : UuidRef) : Event :=
  { start := start, duration := duration, data := data }

/-- `Event::includes_time`. -/
def includes_time (e : Event) (time : Int) : Bool :=
  decide (e.start ≤ time) && decide (e.start + e.duration ≥ time)

/-- `Event::includes`. -/
def includes (e : Event) (start : Int) (duration : Int) : Bool :=
  decide (start ≤ e.start + e.duration) && decide (start + duration ≥ e.start)

end Event

/-- `Calendar<T>` with payload fixed to `UuidRef`. -/
structure Calendar where
  events : List Event
deriving DecidableEq, Repr

/-- Equality of events by `(start, duration, payload identifier)`. -/
def eventKeyEq (a b : Event) : Bool :=
  a.start == b.start && a.duration == b.duration && a.data.uuid == b.data.uuid

namespace Calendar

def new : Calendar := { events := [] }

/-- `Calendar::add_event`: `Vec::push`, append at the end. -/
def add_event (c : Calendar) (ev : Event) : Calendar :=
  { c with events := c.events ++ [ev] }

/-- `Calendar::is_booked_at`. -/
def is_booked_at (c : Calendar) (time : Int) : Bool :=
  (c.events.find? (fun v => v.includes_time time)).isSome

/-- `Calendar::is_booked_from_to`. -/
def is_booked_from_to (c : Calendar) (time : Int) (duration : Int) : Bool :=
  (c.events.find? (fun v => v.includes time duration)).isSome

/-- `Calendar::get_booked_from_to`. -/
def get_booked_from_to (c : Calendar) (time : Int) (duration : Int) : List Event :=
  c.events.filter (fun v => v.includes time duration)

/-- Modelled from the spec: `Calendar::remove_event` is called by
`PlanerData::unbook_exam` but its definition is not among the provided
sources.  The spec states: "`removeEvent(event)`: removes the first Event
equal by `(start, duration, payload-identifier)`". -/
def remove_event (c : Calendar) (ev : Event) : Calendar :=
  { c with events := c.events.eraseP (fun v => eventKeyEq v ev) }

end Calendar

/-- `Tag` from `src/planer.rs`. -/
structure Tag where
  name : String
  required : Bool
deriving DecidableEq, Repr

/-- `Name` from `src/planer.rs` (the `uuid` field is the person's identity). -/
structure Name where
  uuid : Uuid
  first : String
  last : String
  title : Option String
deriving DecidableEq, Repr

/-- The `Display` rendering of a `Name`. -/
def Name.display (n : Name) : String :=
  n.first ++ (match n.title with | some v => " " ++ v | none => "") ++ " " ++ n.last

/-- `Student`. -/
structure Student where
  name : Name
  calendar : Calendar
deriving DecidableEq, Repr

def Student.as_uuid (s : Student) : Uuid := s.name.uuid

/-- `Teacher`. -/
structure Teacher where
  name : Name
  shorthand : String
  calendar : Calendar
  subjects : List String
deriving DecidableEq, Repr

def Teacher.as_uuid (t : Teacher) : Uuid := t.name.uuid

/-- `Room`. -/
structure Room where
  uuid : Uuid
  calendar : Calendar
  number : String
  tags : List String
deriving DecidableEq, Repr

def Room.as_uuid (r : Room) : Uuid := r.uuid

/-- `Exam`.  The `examiners` field is `[Option<UuidRef<Mutex<Teacher>>>; 3]`
in the source, a fixed array of three optional slots iterated in order;
it is modelled as a list of optional references. -/
structure Exam where
  duration : Int
  uuid : Uuid
  id : String
  pinned : Bool
  examinees : List UuidRef
  examiners : List (Option UuidRef)
  subjects : List String
  tags : List Tag
  pairing : Option (UuidRef × Int)
  error : Option String
deriving DecidableEq, Repr

def Exam.as_uuid (e : Exam) : Uuid := e.uuid

/-- The mutable entity graph: one heap per owning collection's element type.
All weak references dereference through these heaps. -/
structure World where
  students : Heap Student
  teachers : Heap Teacher
  exams : Heap Exam
  rooms : Heap Room
deriving DecidableEq, Repr

/-- `HardConstraint` from `src/solver.rs`.  The Rust closures dereference
weak references through the ambient program heap; the `World` argument makes
that heap explicit.  The remaining arguments are exactly the Rust ones:
the exam, the candidate `(room, start time)`, and the `is_check` flag. -/
structure HardConstraint where
  func : World → Exam → Room → Int → Bool → Except String Unit

/-- `SoftConstraint` from `src/solver.rs`. -/
structure SoftConstraint where
  func : World → Exam → Room → Int → Int

/-- `Constraints`. -/
structure Constraints where
  hard : List HardConstraint
  soft : List SoftConstraint

/-- `Result::err`. -/
def exceptErr : Except String Unit → Option String
  | .error e => some e
  | .ok _ => none

namespace Constraints

/-- `Constraints::apply_hard`. -/
def apply_hard (cs : Constraints) (w : World) (value : Exam) (room : Room)
    (time : Int) (is_check : Bool) : Except String Unit :=
  match cs.hard.findSome? (fun v => exceptErr (v.func w value room time is_check)) with
  | some err => .error err
  | none => .ok ()

/-- `Constraints::apply_soft`. -/
def apply_soft (cs : Constraints) (w : World) (value : Exam) (room : Room)
    (time : Int) : Int :=
  cs.soft.foldl (fun acc v => acc + v.func w value room time) 0

end Constraints

/-- First built-in hard rule of `Constraints::default`: the room must not
already be booked, skipped entirely in `is_check` mode. -/
def roomFreeRule : HardConstraint :=
  ⟨fun _w exam room start is_check =>
    if is_check then .ok ()
    else if room.calendar.is_booked_from_to start exam.duration then
      .error ("the room " ++ room.number ++ " is already booked at " ++ toString start)
    else .ok ()⟩

/-- Second built-in hard rule of `Constraints::default`: every required tag
of the exam must appear among the room's tags. -/
def requiredTagsRule : HardConstraint :=
  ⟨fun _w exam room _start _is_check =>
    let missing := exam.tags.filterMap (fun tag =>
      if tag.required && !(room.tags.contains tag.name) then
        some ("\n - " ++ tag.name)
      else none)
    if missing.length = 0 then .ok ()
    else .error ("the following required tags are missing from the room:" ++ String.join missing)⟩

/-- The per-booking step of the examiner rule (see `examinerBusyRule`):
a booking of the very same exam yields nothing; otherwise the booking's exam
reference is upgraded and, when it resolves, its display id is produced (an
unresolvable reference is dropped). -/
def examinerBookingLabel (w : World) (exam : Exam) (b : Event) : Option String :=
  if b.data.uuid == exam.uuid then none
  else (b.data.deref w.exams).map (fun v => v.id)

/-- The per-examiner-slot step of the examiner rule (see
`examinerBusyRule`): an empty slot or an unresolved examiner yields nothing;
a resolved examiner yields a message exactly when it has at least one
overlapping booking with a label. -/
def examinerBusyEntry (w : World) (exam : Exam) (start : Int)
    (examiner : Option UuidRef) : Option String :=
  match examiner with
  | some examinerRef =>
    match examinerRef.deref w.teachers with
    | some examinerp =>
      let bookings := examinerp.calendar.get_booked_from_to start exam.duration
      let bookings_string := bookings.filterMap (examinerBookingLabel w exam)
      if bookings_string.length ≠ 0 then
        some ("\n" ++ examinerp.name.display ++ ": " ++ String.intercalate ", " bookings_string)
      else none
    | none => none
  | none => none

/-- Third built-in hard rule of `Constraints::default`: no assigned examiner
may have an overlapping booking, where bookings carrying the candidate exam's
own identifier are skipped and bookings whose payload exam reference does not
resolve are dropped while building the message. -/
def examinerBusyRule : HardConstraint :=
  ⟨fun w exam _room start _is_check =>
    let booked := exam.examiners.filterMap (examinerBusyEntry w exam start)
    if booked.length ≠ 0 then
      .error ("the following people are already booked:" ++ String.join booked)
    else .ok ()⟩

/-- `Constraints::default`: the single built-in soft rule ranks rooms with
matching tags higher, +2 per required matched tag and +1 per optional one. -/
def tagMatchSoftRule : SoftConstraint :=
  ⟨fun _w exam room _start =>
    (exam.tags.filterMap (fun tag =>
      if room.tags.contains tag.name then
        some (if tag.required then (2 : Int) else 1)
      else none)).sum⟩

/-- `Constraints::default`. -/
def Constraints.default : Constraints :=
  { hard := [roomFreeRule, requiredTagsRule, examinerBusyRule],
    soft := [tagMatchSoftRule] }

/-- The loop shape shared by `book_exam` and `unbook_exam` over the exam's
examinee references: for each reference that upgrades, the target entry is
mutated in place with `g`. -/
def foldRefUpdates {α : Type} (g : α → α) (refs : List UuidRef) (h : Heap α) : Heap α :=
  refs.foldl (fun h r =>
    match r.get h with
    | some i => hset h i g
    | none => h) h

/-- The loop shape shared by `book_exam` and `unbook_exam` over the exam's
optional examiner slots: empty slots and dead references are skipped. -/
def foldOptRefUpdates {α : Type} (g : α → α) (refs : List (Option UuidRef)) (h : Heap α) : Heap α :=
  refs.foldl (fun h r =>
    match r with
    | some r2 =>
      match r2.get h with
      | some i => hset h i g
      | none => h
    | none => h) h

/-- `PlanerData::book_exam`.  `room_id` is the allocation id of the `Arc`
passed as `room` (live by ownership; a dead id makes the call a no-op, an
unreachable modelling artifact).  When the exam reference does not upgrade,
nothing at all happens. -/
def book_exam (w : World) (exam_ref : UuidRef) (room_id : Nat) (start_time : Int) : World :=
  match exam_ref.get w.exams with
  | none => w
  | some eid =>
    match hget w.exams eid, hget w.rooms room_id with
    | some exam, some room =>
      let room_ref : UuidRef := UuidRef.new room_id room.uuid
      let ev : Event := Event.new start_time exam.duration exam_ref
      let students := foldRefUpdates
        (fun s => { s with calendar := s.calendar.add_event ev }) exam.examinees w.students
      let teachers := foldOptRefUpdates
        (fun t => { t with calendar := t.calendar.add_event ev }) exam.examiners w.teachers
      let rooms := hset w.rooms room_id (fun r => { r with calendar := r.calendar.add_event ev })
      let exams := hset w.exams eid (fun e => { e with pairing := some (room_ref, start_time) })
      { students := students, teachers := teachers, exams := exams, rooms := rooms }
    | _, _ => w

/-- `PlanerData::unbook_exam`.  The Rust function takes the room as
`&mut Room`; it is modelled by the allocation id of that room.  The exam's
`pairing` field is deliberately not cleared (as in the source). -/
def unbook_exam (w : World) (exam_ref : UuidRef) (room_id : Nat) (start_time : Int) : World :=
  match exam_ref.get w.exams with
  | none => w
  | some eid =>
    match hget w.exams eid with
    | some exam =>
      let ev : Event := Event.new start_time exam.duration exam_ref
      let students := foldRefUpdates
        (fun s => { s with calendar := s.calendar.remove_event ev }) exam.examinees w.students
      let teachers := foldOptRefUpdates
        (fun t => { t with calendar := t.calendar.remove_event ev }) exam.examiners w.teachers
      let rooms := hset w.rooms room_id (fun r => { r with calendar := r.calendar.remove_event ev })
      { students := students, teachers := teachers, exams := w.exams, rooms := rooms }
    | none => w

/-- `PlanerData::compute_conflicts`, iterating over the finished exams (a
list of live allocation ids).  Rust panics are modelled by `none`: the
source runs `room_ref.get().unwrap()` on the pairing's room reference, so a
pairing whose room reference does not upgrade panics. -/
def compute_conflicts (cs : Constraints) : World → List Nat → Option World
  | w, [] => some w
  | w, eid :: rest =>
    match hget w.exams eid with
    | none => none
    | some exam =>
      match exam.pairing with
      | some (room_ref, time) =>
        match room_ref.get w.rooms with
        | none => none
        | some rid =>
          match hget w.rooms rid with
          | none => none
          | some room =>
            let err := exceptErr (cs.apply_hard w exam room time true)
            compute_conflicts cs
              { w with exams := hset w.exams eid (fun e => { e with error := err }) } rest
      | none => compute_conflicts cs w rest

/-- `LessonType` from `src/planer.rs`. -/
inductive LessonType where
  | Lesson
  | Break
deriving DecidableEq, Repr

/-- `TimetableLesson`: a slot's start time of day (seconds, `NaiveTime`),
its duration, and its kind. -/
structure TimetableLesson where
  start : Int
  duration : Int
  lesson_type : LessonType
deriving DecidableEq, Repr

/-- `Timetable`. -/
structure Timetable where
  times : List TimetableLesson
deriving DecidableEq, Repr

/-- One candidate triple of the scheduler's cross-product enumeration:
the pending exam (index `i` into the pending vector, allocation id `eid`)
and the room (index `j` into the room slice, allocation id `rid`) and the
timetable slot `t`. -/
structure Cand where
  i : Nat
  eid : Nat
  j : Nat
  rid : Nat
  t : TimetableLesson
deriving DecidableEq, Repr

/-- The cross-product enumeration of `solve`: for each pending exam (outer),
each room (middle), each timetable slot (inner), in order. -/
def candTriples (values rooms : List Nat) (times : List TimetableLesson) : List Cand :=
  values.enum.flatMap (fun iv =>
    rooms.enum.flatMap (fun jr =>
      times.map (fun t => { i := iv.1, eid := iv.2, j := jr.1, rid := jr.2, t := t })))

/-- `day.and_time(t.start)`: composing the solve day with a slot's start
time of day, modelled as addition of second offsets. -/
def slotTime (day : Int) (t : TimetableLesson) : Int := day + t.start

/-- The filter step of `solve`: keep the candidates on which `apply_hard`
(with `is_check = false`) succeeds.  Pending exams and rooms are live `Arc`s,
so the heap reads always succeed; a dead id is conservatively filtered out. -/
def survivors (cs : Constraints) (w : World) (day : Int)
    (values rooms : List Nat) (times : List TimetableLesson) : List Cand :=
  (candTriples values rooms times).filter (fun c =>
    match hget w.exams c.eid, hget w.rooms c.rid with
    | some exam, some room => (cs.apply_hard w exam room (slotTime day c.t) false).toBool
    | _, _ => false)

/-- The `apply_soft` score of a candidate (`0` only in the dead-id case,
which the filter already removed). -/
def scoreOf (cs : Constraints) (w : World) (day : Int) (c : Cand) : Int :=
  match hget w.exams c.eid, hget w.rooms c.rid with
  | some exam, some room => cs.apply_soft w exam room (slotTime day c.t)
  | _, _ => 0

/-- `i32::MIN`, the initial accumulator score of the selection fold. -/
def intMin : Int := -(2 ^ 31)

/-- The selection fold of `solve`: starting from
`Ranked(i32::MIN, Indexed(0, None))`, a candidate replaces the accumulator
exactly when its score is strictly greater. -/
def pickBest (cs : Constraints) (w : World) (day : Int) (l : List Cand) :
    Int × Nat × Option Cand :=
  l.foldl (fun acc c =>
    if scoreOf cs w day c > acc.1 then (scoreOf cs w day c, c.i, some c) else acc)
    (intMin, 0, none)

/-- The result of `solve`.  `finished_exams` is the field of the Rust
`SolveResult`; `pending` is the final content of the by-mutable-reference
`values` vector (the unscheduled remainder). -/
structure SolveOutcome where
  pending : List Nat
  finished_exams : List Nat
deriving DecidableEq, Repr

/-- The loop of `solve` in `src/solver.rs`.  `finished` is the accumulator of
exams committed so far.  The `mutator` receives the current world, the
committed exam's allocation id, the chosen room's allocation id and the
chosen slot (in `PlanerData::solve` it is `book_exam`).  `none` models a
panic (`Vec::remove` or `rooms[j]` out of bounds, both unreachable because a
selected candidate comes from the enumeration). -/
def solveGo (cs : Constraints) (mutator : World → Nat → Nat → TimetableLesson → World)
    (rooms : List Nat) (times : List TimetableLesson) (day : Int)
    (w : World) (values : List Nat) (finished : List Nat) :
    Option (Except SolveOutcome SolveOutcome) :=
  if values = [] then some (.ok { pending := [], finished_exams := finished })
  else
    match pickBest cs w day (survivors cs w day values rooms times) with
    | (_, _, none) => some (.error { pending := values, finished_exams := finished })
    | (_, i, some c) =>
      if hi : i < values.length then
        match rooms.get? c.j with
        | some rid =>
          let value := values.get ⟨i, hi⟩
          solveGo cs mutator rooms times day
            (mutator w value rid c.t) (values.eraseIdx i) (finished ++ [value])
        | none => none
      else none
termination_by values.length
decreasing_by simp [List.length_eraseIdx, hi]; omega

/-- `solve`: run the loop with an empty finished accumulator. -/
def solve (cs : Constraints) (mutator : World → Nat → Nat → TimetableLesson → World)
    (w : World) (values rooms : List Nat) (timetable : Timetable) (day : Int) :
    Option (Except SolveOutcome SolveOutcome) :=
  solveGo cs mutator rooms timetable.times day w values []

/-! Concrete instances used in witnesses and counterexamples. -/

/-- A minimal exam: no participants, no tags. -/
def sampleExam : Exam := {
  duration := 60
  uuid := 5
  id := "E1"
  pinned := false
  examinees := []
  examiners := [none, none, none]
  subjects := []
  tags := []
  pairing := none
  error := none }

/-- A room with no tags and an empty calendar. -/
def sampleRoom : Room := { uuid := 9, calendar := Calendar.new, number := "101", tags := [] }

/-- A world with no entities at all. -/
def emptyWorld : World := { students := [], teachers := [], exams := [], rooms := [] }

/-- A finished exam paired to a room whose weak reference does not resolve
(the room was removed from its owning collection). -/
def danglingPairedExam : Exam :=
  { sampleExam with pairing := some ({ item := none, uuid := 9 }, 100) }

/-- World for claim C1: one finished exam whose paired room is gone. -/
def c1World : World :=
  { students := [], teachers := [], exams := [(0, danglingPairedExam)], rooms := [] }

/-- A student with identifier 5. -/
def sampleStudent : Student := {
  name := { uuid := 5, first := "Ada", last := "L", title := none }
  calendar := Calendar.new }

/-- A student heap holding `sampleStudent` at allocation 7. -/
def c2Heap : Heap Student := [(7, sampleStudent)]

/-- A reference with identifier 5, attached to live allocation 7. -/
def c2Ref : UuidRef := { item := some 7, uuid := 5 }

/-- A teacher whose calendar holds a booking whose exam payload reference
does not resolve (dangling) and carries a foreign identifier 99. -/
def c6Teacher : Teacher := {
  name := { uuid := 7, first := "Tea", last := "Cher", title := none }
  shorthand := "TC"
  calendar := { events := [{ start := 100, duration := 60, data := { item := none, uuid := 99 } }] }
  subjects := [] }

/-- An exam with `c6Teacher` assigned (and resolved) as first examiner. -/
def c6Exam : Exam :=
  { sampleExam with examiners := [some { item := some 0, uuid := 7 }, none, none] }

/-- World for claim C6: the assigned examiner resolves, its overlapping
booking belongs to a different exam but its payload reference is dangling. -/
def c6World : World :=
  { students := [], teachers := [(0, c6Teacher)], exams := [(1, c6Exam)], rooms := [] }

/-- A room tagged `lab`. -/
def labRoom : Room := { sampleRoom with tags := ["lab"] }

/-- An exam requiring tag `lab`. -/
def labExam : Exam := { sampleExam with tags := [{ name := "lab", required := true }] }

/-- An event with nonnegative duration. -/
def sampleEvent : Event := { start := 100, duration := 60, data := UuidRef.null }

/-- An event with negative duration (chrono durations may be negative). -/
def negEvent : Event := { start := 0, duration := -1, data := UuidRef.null }

/-- World for claim C10: a student and a room exist, the exam does not. -/
def c10World : World :=
  { students := [(2, sampleStudent)], teachers := [], exams := [], rooms := [(1, sampleRoom)] }

/-- A reference whose weak handle points at a freed exam allocation. -/
def c10Ref : UuidRef := { item := some 3, uuid := 5 }

/-- The names of the exam's required tags that are absent from the room's
tags (the spec's "missing required tag" list). -/
def missingRequiredNames (e : Exam) (room : Room) : List String :=
  (e.tags.filter (fun tag => tag.required && !(room.tags.contains tag.name))).map Tag.name

/-- No event of the calendar agrees with `ev` on
`(start, duration, payload identifier)`. -/
def calendarKeyFree (cal : Calendar) (ev : Event) : Prop :=
  ∀ e2 ∈ cal.events, eventKeyEq e2 ev = false

instance (cal : Calendar) (ev : Event) : Decidable (calendarKeyFree cal ev) :=
  inferInstanceAs (Decidable (∀ e2 ∈ cal.events, eventKeyEq e2 ev = false))

/-- How many of the references resolve to allocation id `x` in heap `h`. -/
def resolveCount {α : Type} (refs : List UuidRef) (h : Heap α) (x : Nat) : Nat :=
  (refs.filterMap (fun r => r.get h)).count x

/-- A room already holding an event with the booking's key
`(start 100, duration 60, exam identifier 5)` but a dangling payload handle. -/
def c5Room : Room := {
  uuid := 9
  calendar := { events := [{ start := 100, duration := 60, data := { item := none, uuid := 5 } }] }
  number := "101"
  tags := [] }

/-- World for the C5 counterexample. -/
def c5World : World :=
  { students := [], teachers := [], exams := [(0, sampleExam)], rooms := [(1, c5Room)] }

/-- A resolving reference to `sampleExam` at allocation 0. -/
def c5Ref : UuidRef := { item := some 0, uuid := 5 }

/-- A teacher with an empty calendar. -/
def c5Teacher : Teacher := {
  name := { uuid := 7, first := "Tea", last := "Cher", title := none }
  shorthand := "TC"
  calendar := Calendar.new
  subjects := [] }

/-- An exam with one examinee (student allocation 2, identifier 5) and one
examiner (teacher allocation 3, identifier 7). -/
def c5Exam : Exam := { sampleExam with
  examinees := [{ item := some 2, uuid := 5 }]
  examiners := [some { item := some 3, uuid := 7 }, none, none] }

/-- World for the C5 witness: all touched calendars are empty. -/
def c5WitnessWorld : World :=
  { students := [(2, sampleStudent)], teachers := [(3, c5Teacher)],
    exams := [(0, c5Exam)], rooms := [(1, sampleRoom)] }

/-- A resolving reference to `c5Exam` at allocation 0. -/
def c5WitnessRef : UuidRef := { item := some 0, uuid := 5 }

/-- The selection-fold step of `solve`, abstracted over the scoring
function: a candidate replaces the accumulator exactly when its score is
strictly greater. -/
def pickStep (f : Cand → Int) (acc : Int × Nat × Option Cand) (c : Cand) :
    Int × Nat × Option Cand :=
  if f c > acc.1 then (f c, c.i, some c) else acc

/-- `c` is the earliest candidate of `l` attaining the maximal score
(the spec's "strictly highest score; ties keep the first-found"). -/
def IsFirstStrictMax (f : Cand → Int) (l : List Cand) (c : Cand) : Prop :=
  ∃ pre post, l = pre ++ c :: post ∧
    (∀ d ∈ pre, f d < f c) ∧ (∀ d ∈ l, f d ≤ f c)

/-- The amended per-iteration selection property of `solve` (claim C3):
writing `surv` for the surviving candidates and `best` for the selection
fold's result, (i) no candidate is selected iff every survivor scores at
most `i32::MIN`, in which case the iteration aborts with the pending set
unchanged; (ii) a selected candidate is the earliest survivor of maximal
score, that score exceeds `i32::MIN`, and `solveGo` commits exactly that
candidate's exam into that candidate's room and slot. -/
def SelectionSpec (cs : Constraints) (mutator : World → Nat → Nat → TimetableLesson → World)
    (rooms : List Nat) (times : List TimetableLesson) (day : Int)
    (w : World) (values : List Nat) (finished : List Nat) : Prop :=
  ((pickBest cs w day (survivors cs w day values rooms times)).2.2 = none ↔
    ∀ c ∈ survivors cs w day values rooms times, scoreOf cs w day c ≤ intMin) ∧
  ((pickBest cs w day (survivors cs w day values rooms times)).2.2 = none →
    solveGo cs mutator rooms times day w values finished
      = some (.error { pending := values, finished_exams := finished })) ∧
  (∀ c, (pickBest cs w day (survivors cs w day values rooms times)).2.2 = some c →
    IsFirstStrictMax (scoreOf cs w day) (survivors cs w day values rooms times) c ∧
    intMin < scoreOf cs w day c ∧
    (pickBest cs w day (survivors cs w day values rooms times)).2.1 = c.i ∧
    (pickBest cs w day (survivors cs w day values rooms times)).1 = scoreOf cs w day c ∧
    ∃ hi : c.i < values.length, ∃ rid, rooms.get? c.j = some rid ∧
      values.get ⟨c.i, hi⟩ = c.eid ∧
      solveGo cs mutator rooms times day w values finished
        = solveGo cs mutator rooms times day (mutator w c.eid rid c.t)
            (values.eraseIdx c.i) (finished ++ [c.eid]))

/-- Constraints with no hard rules and a single soft rule that always
returns `i32::MIN` (a legal custom soft constraint). -/
def minSoftCs : Constraints := { hard := [], soft := [⟨fun _w _e _r _t => intMin⟩] }

/-- Constraints with no rules at all (every candidate survives, score 0). -/
def passCs : Constraints := { hard := [], soft := [] }

/-- A mutator that does nothing. -/
def idMutator : World → Nat → Nat → TimetableLesson → World := fun w _ _ _ => w

/-- A lesson slot. -/
def sampleLesson : TimetableLesson := { start := 100, duration := 45, lesson_type := .Lesson }

/-- World for the solver claims: one live exam (allocation 0) and one live
room (allocation 1). -/
def c3World : World :=
  { students := [], teachers := [], exams := [(0, sampleExam)], rooms := [(1, sampleRoom)] }

/-! Helper lemmas. -/

theorem hget_hset {α : Type} (h : Heap α) (i : Nat) (f : α → α) (j : Nat) :
    hget (hset h i f) j = if i = j then (hget h j).map f else hget h j := by
  induction h with
  | nil => by_cases hij : i = j <;> simp [hget, hset, hij]
  | cons p t ih =>
    have hc : hset (p :: t) i f = (if p.1 = i then (p.1, f p.2) else p) :: hset t i f := rfl
    rw [hc]
    by_cases hpi : p.1 = i <;> by_cases hpj : p.1 = j
    · have hij : i = j := hpi.symm.trans hpj
      simp [hget, hpi, hpj, hij]
    · have hij : ¬i = j := fun hh => hpj (hpi.trans hh)
      simp [hget, hpi, hpj, hij, ih]
    · have hij : ¬i = j := fun hh => hpi (hpj.trans hh.symm)
      have hji : ¬j = i := fun hh => hij hh.symm
      simp [hget, hpi, hpj, hij, hji]
    · simp [hget, hpi, hpj, ih]

theorem isSome_hget_hset {α : Type} (h : Heap α) (i : Nat) (f : α → α) (j : Nat) :
    (hget (hset h i f) j).isSome = (hget h j).isSome := by
  rw [hget_hset]
  by_cases hij : i = j <;> simp [hij]

theorem get_hset {α : Type} (r : UuidRef) (h : Heap α) (i : Nat) (f : α → α) :
    r.get (hset h i f) = r.get h := by
  unfold UuidRef.get
  rcases r.item with _ | j
  · rfl
  · simp only [Option.some_bind]
    rw [isSome_hget_hset]

theorem hset_hset_same {α : Type} (h : Heap α) (i : Nat) (f g : α → α) :
    hset (hset h i f) i g = hset h i (fun a => g (f a)) := by
  unfold hset
  rw [List.map_map]
  apply List.map_congr_left
  intro p _
  by_cases hp : p.1 = i <;> simp [hp]

theorem hset_eq_self {α : Type} (h : Heap α) (i : Nat) (f : α → α)
    (hf : ∀ p ∈ h, p.1 = i → f p.2 = p.2) : hset h i f = h := by
  unfold hset
  conv_rhs => rw [show h = h.map (fun p => p) from (List.map_id h).symm]
  apply List.map_congr_left
  intro p hp
  by_cases hpi : p.1 = i
  · rw [if_pos hpi, hf p hp hpi]
  · rw [if_neg hpi]

theorem foldOptRefUpdates_eq {α : Type} (g : α → α) (refs : List (Option UuidRef))
    (h : Heap α) :
    foldOptRefUpdates g refs h = foldRefUpdates g (refs.filterMap (fun x => x)) h := by
  induction refs generalizing h with
  | nil => rfl
  | cons r rs ih =>
    rcases r with _ | r2
    · simp only [foldOptRefUpdates, foldRefUpdates, List.foldl_cons, List.filterMap_cons]
      exact ih h
    · simp only [foldOptRefUpdates, foldRefUpdates, List.foldl_cons, List.filterMap_cons]
      rcases r2.get h with _ | i
      · exact ih h
      · exact ih (hset h i g)

theorem get_foldRefUpdates {α : Type} (g : α → α) (refs : List UuidRef)
    (h : Heap α) (r : UuidRef) :
    r.get (foldRefUpdates g refs h) = r.get h := by
  induction refs generalizing h with
  | nil => rfl
  | cons r2 rs ih =>
    simp only [foldRefUpdates, List.foldl_cons]
    rcases r2.get h with _ | i
    · exact ih h
    · rw [show List.foldl _ (hset h i g) rs = foldRefUpdates g rs (hset h i g) from rfl,
        ih (hset h i g), get_hset]

theorem resolveCount_cons_none {α : Type} {r : UuidRef} {h : Heap α}
    (rs : List UuidRef) (x : Nat) (hr : r.get h = none) :
    resolveCount (r :: rs) h x = resolveCount rs h x := by
  unfold resolveCount
  simp [List.filterMap_cons, hr]

theorem resolveCount_cons_some {α : Type} {r : UuidRef} {h : Heap α} {i : Nat}
    (rs : List UuidRef) (x : Nat) (hr : r.get h = some i) :
    resolveCount (r :: rs) h x = resolveCount rs h x + (if i = x then 1 else 0) := by
  unfold resolveCount
  simp only [List.filterMap_cons, hr, List.count_cons]
  by_cases hix : i = x
  · simp [hix]
  · simp [hix, beq_iff_eq]

theorem resolveCount_hset {α : Type} (refs : List UuidRef) (h : Heap α)
    (i : Nat) (g : α → α) (x : Nat) :
    resolveCount refs (hset h i g) x = resolveCount refs h x := by
  unfold resolveCount
  have : refs.filterMap (fun r => r.get (hset h i g)) = refs.filterMap (fun r => r.get h) := by
    apply List.filterMap_congr
    intro r _
    exact get_hset r h i g
  rw [this]

theorem foldRefUpdates_eq_map {α : Type} (g : α → α) (refs : List UuidRef) (h : Heap α) :
    foldRefUpdates g refs h = h.map (fun p => (p.1, g^[resolveCount refs h p.1] p.2)) := by
  induction refs generalizing h with
  | nil =>
    simp only [foldRefUpdates, List.foldl_nil, resolveCount, List.filterMap_nil,
      List.count_nil, Function.iterate_zero, id_eq]
    exact (List.map_id h).symm
  | cons r rs ih =>
    simp only [foldRefUpdates, List.foldl_cons]
    rcases hr : r.get h with _ | i
    · rw [show List.foldl _ h rs = foldRefUpdates g rs h from rfl, ih h]
      apply List.map_congr_left
      intro p _
      rw [resolveCount_cons_none rs p.1 hr]
    · rw [show List.foldl _ (hset h i g) rs = foldRefUpdates g rs (hset h i g) from rfl,
        ih (hset h i g)]
      unfold hset
      rw [List.map_map]
      apply List.map_congr_left
      intro p hp
      have hcnt : ∀ y, resolveCount rs (hset h i g) y = resolveCount rs h y :=
        fun y => resolveCount_hset rs h i g y
      by_cases hpi : p.1 = i
      · simp only [Function.comp_apply, if_pos hpi]
        show (p.1, g^[resolveCount rs (hset h i g) p.1] (g p.2))
          = (p.1, g^[resolveCount (r :: rs) h p.1] p.2)
        rw [hcnt p.1, resolveCount_cons_some rs p.1 hr, if_pos hpi.symm,
          Function.iterate_succ_apply]
      · simp only [Function.comp_apply, if_neg hpi]
        show (p.1, g^[resolveCount rs (hset h i g) p.1] p.2)
          = (p.1, g^[resolveCount (r :: rs) h p.1] p.2)
        rw [hcnt p.1, resolveCount_cons_some rs p.1 hr, if_neg (fun hh => hpi hh.symm),
          Nat.add_zero]

theorem resolveCount_foldRefUpdates {α : Type} (g : α → α) (refs refs2 : List UuidRef)
    (h : Heap α) (x : Nat) :
    resolveCount refs2 (foldRefUpdates g refs h) x = resolveCount refs2 h x := by
  unfold resolveCount
  have : refs2.filterMap (fun r => r.get (foldRefUpdates g refs h))
      = refs2.filterMap (fun r => r.get h) := by
    apply List.filterMap_congr
    intro r _
    exact get_foldRefUpdates g refs h r
  rw [this]

theorem foldRefUpdates_remove_add {α : Type} (ga gr : α → α) (refs : List UuidRef)
    (h : Heap α)
    (hpt : ∀ p ∈ h, (∃ r ∈ refs, r.get h = some p.1) →
      ∀ k, gr^[k] (ga^[k] p.2) = p.2) :
    foldRefUpdates gr refs (foldRefUpdates ga refs h) = h := by
  have e2 : foldRefUpdates gr refs (foldRefUpdates ga refs h)
      = (foldRefUpdates ga refs h).map (fun p => (p.1, gr^[resolveCount refs h p.1] p.2)) := by
    rw [foldRefUpdates_eq_map]
    apply List.map_congr_left
    intro p _
    rw [resolveCount_foldRefUpdates]
  rw [e2, foldRefUpdates_eq_map, List.map_map]
  have e3 : ∀ p ∈ h, ((fun p : Nat × α => (p.1, gr^[resolveCount refs h p.1] p.2)) ∘
      (fun p : Nat × α => (p.1, ga^[resolveCount refs h p.1] p.2))) p = p := by
    intro p hp
    show (p.1, gr^[resolveCount refs h p.1] (ga^[resolveCount refs h p.1] p.2)) = p
    by_cases hk : resolveCount refs h p.1 = 0
    · rw [hk]
      rfl
    · have hmem : p.1 ∈ refs.filterMap (fun r => r.get h) := by
        rcases Nat.exists_eq_succ_of_ne_zero hk with ⟨n, hn⟩
        have : 0 < (refs.filterMap (fun r => r.get h)).count p.1 := by
          unfold resolveCount at hn
          omega
        exact List.count_pos_iff.mp this
      rw [List.mem_filterMap] at hmem
      rcases hmem with ⟨r, hrmem, hrget⟩
      rw [hpt p hp ⟨r, hrmem, hrget⟩ (resolveCount refs h p.1)]
  rw [List.map_congr_left e3]
  simp

theorem eventKeyEq_refl (ev : Event) : eventKeyEq ev ev = true := by
  simp [eventKeyEq]

theorem eraseP_keyEq_cons (ev : Event) (l : List Event) :
    List.eraseP (fun v => eventKeyEq v ev) (ev :: l) = l := by
  have hre : (fun v => eventKeyEq v ev) ev = true := eventKeyEq_refl ev
  simp [List.eraseP_cons, hre]

theorem calendar_add_iter (ev : Event) (k : Nat) (c : Calendar) :
    (fun cal => Calendar.add_event cal ev)^[k] c
      = { events := c.events ++ List.replicate k ev } := by
  induction k generalizing c with
  | zero => simp
  | succ n ihn =>
    rw [Function.iterate_succ_apply, ihn]
    show ({ events := (c.events ++ [ev]) ++ List.replicate n ev } : Calendar) = _
    rw [List.append_assoc]
    rw [show ([ev] ++ List.replicate n ev) = List.replicate (n + 1) ev from
      (List.replicate_succ ev n).symm]

theorem calendar_remove_add_iter (ev : Event) (c : Calendar)
    (hc : ∀ e2 ∈ c.events, eventKeyEq e2 ev = false) (k : Nat) :
    (fun cal => Calendar.remove_event cal ev)^[k]
      ((fun cal => Calendar.add_event cal ev)^[k] c) = c := by
  induction k with
  | zero => rfl
  | succ n ihn =>
    rw [Function.iterate_succ_apply, calendar_add_iter]
    have hstep : Calendar.remove_event
        ({ events := c.events ++ List.replicate (n + 1) ev } : Calendar) ev
        = (fun cal => Calendar.add_event cal ev)^[n] c := by
      unfold Calendar.remove_event
      rw [List.replicate_succ]
      rw [List.eraseP_append_right _ (fun b hb => by simp [hc b hb])]
      rw [eraseP_keyEq_cons]
      rw [calendar_add_iter]
    rw [hstep, ihn]

theorem student_add_iter (ev : Event) (k : Nat) (s : Student) :
    (fun s => { s with calendar := s.calendar.add_event ev })^[k] s
      = { s with calendar := { events := s.calendar.events ++ List.replicate k ev } } := by
  induction k generalizing s with
  | zero => simp
  | succ n ihn =>
    rw [Function.iterate_succ_apply, ihn]
    show ({ s with calendar :=
      { events := (s.calendar.events ++ [ev]) ++ List.replicate n ev } } : Student) = _
    rw [List.append_assoc]
    rfl

theorem student_remove_add_iter (ev : Event) (s : Student)
    (hc : calendarKeyFree s.calendar ev) (k : Nat) :
    (fun s => { s with calendar := s.calendar.remove_event ev })^[k]
      ((fun s => { s with calendar := s.calendar.add_event ev })^[k] s) = s := by
  induction k with
  | zero => rfl
  | succ n ihn =>
    rw [student_add_iter, Function.iterate_succ_apply]
    show (fun s => { s with calendar := s.calendar.remove_event ev })^[n]
        ({ s with calendar := (({ events :=
          s.calendar.events ++ List.replicate (n + 1) ev } : Calendar).remove_event ev) }
          : Student) = s
    have hstep : (({ events :=
        s.calendar.events ++ List.replicate (n + 1) ev } : Calendar).remove_event ev)
        = ({ events := s.calendar.events ++ List.replicate n ev } : Calendar) := by
      unfold Calendar.remove_event
      rw [List.replicate_succ]
      rw [List.eraseP_append_right _ (fun b hb => by simp [hc b hb])]
      rw [eraseP_keyEq_cons]
    rw [hstep, ← student_add_iter ev n s]
    exact ihn

theorem teacher_add_iter (ev : Event) (k : Nat) (t : Teacher) :
    (fun t => { t with calendar := t.calendar.add_event ev })^[k] t
      = { t with calendar := { events := t.calendar.events ++ List.replicate k ev } } := by
  induction k generalizing t with
  | zero => simp
  | succ n ihn =>
    rw [Function.iterate_succ_apply, ihn]
    show ({ t with calendar :=
      { events := (t.calendar.events ++ [ev]) ++ List.replicate n ev } } : Teacher) = _
    rw [List.append_assoc]
    rfl

theorem teacher_remove_add_iter (ev : Event) (t : Teacher)
    (hc : calendarKeyFree t.calendar ev) (k : Nat) :
    (fun t => { t with calendar := t.calendar.remove_event ev })^[k]
      ((fun t => { t with calendar := t.calendar.add_event ev })^[k] t) = t := by
  induction k with
  | zero => rfl
  | succ n ihn =>
    rw [teacher_add_iter, Function.iterate_succ_apply]
    show (fun t => { t with calendar := t.calendar.remove_event ev })^[n]
        ({ t with calendar := (({ events :=
          t.calendar.events ++ List.replicate (n + 1) ev } : Calendar).remove_event ev) }
          : Teacher) = t
    have hstep : (({ events :=
        t.calendar.events ++ List.replicate (n + 1) ev } : Calendar).remove_event ev)
        = ({ events := t.calendar.events ++ List.replicate n ev } : Calendar) := by
      unfold Calendar.remove_event
      rw [List.replicate_succ]
      rw [List.eraseP_append_right _ (fun b hb => by simp [hc b hb])]
      rw [eraseP_keyEq_cons]
    rw [hstep, ← teacher_add_iter ev n t]
    exact ihn

theorem calendar_remove_add (ev : Event) (c : Calendar)
    (hc : ∀ e2 ∈ c.events, eventKeyEq e2 ev = false) :
    (c.add_event ev).remove_event ev = c := by
  have := calendar_remove_add_iter ev c hc 1
  simpa using this

theorem pickStep_some_inv (f : Cand → Int) (xs : List Cand) : ∀ c0 : Cand,
    (List.foldl (pickStep f) (f c0, c0.i, some c0) xs = (f c0, c0.i, some c0) ∧
      ∀ d ∈ xs, f d ≤ f c0) ∨
    (∃ pre c post, xs = pre ++ c :: post ∧
      List.foldl (pickStep f) (f c0, c0.i, some c0) xs = (f c, c.i, some c) ∧
      f c0 < f c ∧ (∀ d ∈ pre, f d < f c) ∧ (∀ d ∈ post, f d ≤ f c)) := by
  induction xs with
  | nil =>
    intro c0
    left
    exact ⟨rfl, by simp⟩
  | cons x xs ih =>
    intro c0
    rw [List.foldl_cons]
    by_cases hx : f x > f c0
    · rw [show pickStep f (f c0, c0.i, some c0) x = (f x, x.i, some x) from by
        unfold pickStep; rw [if_pos hx]]
      rcases ih x with ⟨heq, hall⟩ | ⟨pre, c, post, hxs, heq, hlt, hpre, hpost⟩
      · right
        exact ⟨[], x, xs, by simp, heq, hx, by simp, hall⟩
      · right
        refine ⟨x :: pre, c, post, by rw [hxs]; rfl, heq, lt_trans hx hlt, ?_, hpost⟩
        intro d hd
        rcases List.mem_cons.mp hd with hdx | hdp
        · rw [hdx]
          exact hlt
        · exact hpre d hdp
    · rw [show pickStep f (f c0, c0.i, some c0) x = (f c0, c0.i, some c0) from by
        unfold pickStep; rw [if_neg hx]]
      have hxle : f x ≤ f c0 := not_lt.mp hx
      rcases ih c0 with ⟨heq, hall⟩ | ⟨pre, c, post, hxs, heq, hlt, hpre, hpost⟩
      · left
        refine ⟨heq, fun d hd => ?_⟩
        rcases List.mem_cons.mp hd with hdx | hdp
        · rw [hdx]
          exact hxle
        · exact hall d hdp
      · right
        refine ⟨x :: pre, c, post, by rw [hxs]; rfl, heq, hlt, ?_, hpost⟩
        intro d hd
        rcases List.mem_cons.mp hd with hdx | hdp
        · rw [hdx]
          exact lt_of_le_of_lt hxle hlt
        · exact hpre d hdp

theorem pickStep_none_inv (f : Cand → Int) (xs : List Cand) : ∀ (m : Int) (d0 : Nat),
    (List.foldl (pickStep f) (m, d0, none) xs = (m, d0, none) ∧ ∀ d ∈ xs, f d ≤ m) ∨
    (∃ pre c post, xs = pre ++ c :: post ∧
      List.foldl (pickStep f) (m, d0, none) xs = (f c, c.i, some c) ∧
      m < f c ∧ (∀ d ∈ pre, f d < f c) ∧ (∀ d ∈ post, f d ≤ f c)) := by
  induction xs with
  | nil =>
    intro m d0
    left
    exact ⟨rfl, by simp⟩
  | cons x xs ih =>
    intro m d0
    rw [List.foldl_cons]
    by_cases hx : f x > m
    · rw [show pickStep f (m, d0, none) x = (f x, x.i, some x) from by
        unfold pickStep; rw [if_pos hx]]
      rcases pickStep_some_inv f xs x with ⟨heq, hall⟩ | ⟨pre, c, post, hxs, heq, hlt, hpre, hpost⟩
      · right
        exact ⟨[], x, xs, by simp, heq, hx, by simp, hall⟩
      · right
        refine ⟨x :: pre, c, post, by rw [hxs]; rfl, heq, lt_trans hx hlt, ?_, hpost⟩
        intro d hd
        rcases List.mem_cons.mp hd with hdx | hdp
        · rw [hdx]
          exact hlt
        · exact hpre d hdp
    · rw [show pickStep f (m, d0, none) x = (m, d0, none) from by
        unfold pickStep; rw [if_neg hx]]
      have hxle : f x ≤ m := not_lt.mp hx
      rcases ih m d0 with ⟨heq, hall⟩ | ⟨pre, c, post, hxs, heq, hlt, hpre, hpost⟩
      · left
        refine ⟨heq, fun d hd => ?_⟩
        rcases List.mem_cons.mp hd with hdx | hdp
        · rw [hdx]
          exact hxle
        · exact hall d hdp
      · right
        refine ⟨x :: pre, c, post, by rw [hxs]; rfl, heq, hlt, ?_, hpost⟩
        intro d hd
        rcases List.mem_cons.mp hd with hdx | hdp
        · rw [hdx]
          exact lt_of_le_of_lt hxle hlt
        · exact hpre d hdp

theorem pickBest_eq_foldl (cs : Constraints) (w : World) (day : Int) (l : List Cand) :
    pickBest cs w day l = List.foldl (pickStep (scoreOf cs w day)) (intMin, 0, none) l :=
  rfl

theorem pickBest_none_iff (cs : Constraints) (w : World) (day : Int) (l : List Cand) :
    (pickBest cs w day l).2.2 = none ↔ ∀ c ∈ l, scoreOf cs w day c ≤ intMin := by
  rw [pickBest_eq_foldl]
  rcases pickStep_none_inv (scoreOf cs w day) l intMin 0 with
    ⟨heq, hall⟩ | ⟨pre, c, post, hl, heq, hlt, _, _⟩
  · rw [heq]
    simp only [true_iff]
    exact hall
  · rw [heq]
    simp only [reduceCtorEq, false_iff]
    intro hall
    have hc : c ∈ l := by rw [hl]; simp
    exact absurd (hall c hc) (not_le.mpr hlt)

theorem pickBest_some_spec (cs : Constraints) (w : World) (day : Int) (l : List Cand)
    (c : Cand) (hsome : (pickBest cs w day l).2.2 = some c) :
    IsFirstStrictMax (scoreOf cs w day) l c ∧ intMin < scoreOf cs w day c ∧
    pickBest cs w day l = (scoreOf cs w day c, c.i, some c) := by
  rcases pickStep_none_inv (scoreOf cs w day) l intMin 0 with
    ⟨heq, _⟩ | ⟨pre, c2, post, hl, heq, hlt, hpre, hpost⟩
  · rw [pickBest_eq_foldl, heq] at hsome
    exact absurd hsome (by simp)
  · rw [pickBest_eq_foldl, heq] at hsome
    have hc2 : c2 = c := by simpa using hsome
    subst hc2
    refine ⟨⟨pre, post, hl, hpre, ?_⟩, hlt, by rw [pickBest_eq_foldl, heq]⟩
    intro d hd
    rw [hl] at hd
    rcases List.mem_append.mp hd with hd1 | hd2
    · exact le_of_lt (hpre d hd1)
    · rcases List.mem_cons.mp hd2 with hdc | hdp
      · rw [hdc]
      · exact hpost d hdp

theorem candTriples_mem {values rooms : List Nat} {times : List TimetableLesson}
    {c : Cand} (hc : c ∈ candTriples values rooms times) :
    values.get? c.i = some c.eid ∧ rooms.get? c.j = some c.rid ∧ c.t ∈ times := by
  unfold candTriples at hc
  rw [List.mem_flatMap] at hc
  rcases hc with ⟨iv, hiv, hc⟩
  rw [List.mem_flatMap] at hc
  rcases hc with ⟨jr, hjr, hc⟩
  rw [List.mem_map] at hc
  rcases hc with ⟨t, ht, hceq⟩
  have hiv2 := List.mem_enum (show (iv.1, iv.2) ∈ values.enum from hiv)
  have hjr2 := List.mem_enum (show (jr.1, jr.2) ∈ rooms.enum from hjr)
  rw [← hceq]
  refine ⟨?_, ?_, ht⟩
  · show values.get? iv.1 = some iv.2
    rw [List.get?_eq_some]
    exact ⟨hiv2.1, hiv2.2.symm⟩
  · show rooms.get? jr.1 = some jr.2
    rw [List.get?_eq_some]
    exact ⟨hjr2.1, hjr2.2.symm⟩

theorem survivors_subset {cs : Constraints} {w : World} {day : Int}
    {values rooms : List Nat} {times : List TimetableLesson} {c : Cand}
    (hc : c ∈ survivors cs w day values rooms times) :
    c ∈ candTriples values rooms times :=
  (List.mem_filter.mp hc).1

theorem solveGo_nil (cs : Constraints) (mu : World → Nat → Nat → TimetableLesson → World)
    (rooms : List Nat) (times : List TimetableLesson) (day : Int) (w : World)
    (fin : List Nat) :
    solveGo cs mu rooms times day w [] fin
      = some (.ok { pending := [], finished_exams := fin }) := by
  unfold solveGo
  simp

theorem solveGo_pick_none (cs : Constraints) (mu : World → Nat → Nat → TimetableLesson → World)
    (rooms : List Nat) (times : List TimetableLesson) (day : Int) (w : World)
    (values fin : List Nat) (hv : values ≠ []) (s : Int) (i : Nat)
    (hp : pickBest cs w day (survivors cs w day values rooms times) = (s, i, none)) :
    solveGo cs mu rooms times day w values fin
      = some (.error { pending := values, finished_exams := fin }) := by
  unfold solveGo
  rw [if_neg hv, hp]

theorem solveGo_pick_some (cs : Constraints) (mu : World → Nat → Nat → TimetableLesson → World)
    (rooms : List Nat) (times : List TimetableLesson) (day : Int) (w : World)
    (values fin : List Nat) (hv : values ≠ []) (s : Int) (i : Nat) (c : Cand)
    (hp : pickBest cs w day (survivors cs w day values rooms times) = (s, i, some c))
    (hi : i < values.length) (rid : Nat) (hrid : rooms.get? c.j = some rid) :
    solveGo cs mu rooms times day w values fin
      = solveGo cs mu rooms times day (mu w (values.get ⟨i, hi⟩) rid c.t)
          (values.eraseIdx i) (fin ++ [values.get ⟨i, hi⟩]) := by
  conv_lhs => rw [solveGo]
  rw [if_neg hv, hp]
  simp only [hrid, hi, dif_pos]

theorem get_cons_eraseIdx_perm {α : Type} (l : List α) (i : Nat) (h : i < l.length) :
    List.Perm (l.get ⟨i, h⟩ :: l.eraseIdx i) l := by
  rw [List.eraseIdx_eq_take_drop_succ]
  calc List.Perm (l.get ⟨i, h⟩ :: (l.take i ++ l.drop (i + 1))) (l.take i ++ l.get ⟨i, h⟩ :: l.drop (i + 1)) := (List.perm_middle).symm
    _ = l := by rw [List.get_eq_getElem, List.getElem_cons_drop, List.take_append_drop]

theorem exceptErr_eq_none {r : Except String Unit} : exceptErr r = none ↔ r = .ok () := by
  cases r with
  | error e => simp [exceptErr]
  | ok u => cases u; simp [exceptErr]

theorem exceptErr_eq_some {r : Except String Unit} {m : String} :
    exceptErr r = some m ↔ r = .error m := by
  cases r with
  | error e => simp [exceptErr]
  | ok u => cases u; simp [exceptErr]

theorem filterMap_ite_eq_map_filter {α β : Type} (p : α → Bool) (g : α → β) (l : List α) :
    l.filterMap (fun a => if p a then some (g a) else none) = (l.filter p).map g := by
  induction l with
  | nil => rfl
  | cons x xs ih =>
    by_cases hx : p x = true
    · simp [List.filterMap_cons, List.filter_cons, hx, ih]
    · simp [List.filterMap_cons, List.filter_cons, hx, ih]

/-! Claim theorems. -/

/-- Claim C1 (code bug): for the finished exam `danglingPairedExam`, whose
pairing is set but whose room weak reference does not resolve,
`compute_conflicts` panics (modelled as `none`): the source unwraps
`room_ref.get()`.  This contradicts the spec's requirement that dangling
weak references be tolerated, not crashed on. -/
theorem c1_compute_conflicts_panics_on_dangling_room_ref :
    compute_conflicts Constraints.default c1World [0] = none := by
  rfl

/-- Claim C2 (amended): after `revalidate` against an authoritative
collection of live allocations, if some element carries the reference's
identifier then `get` resolves to such an element; if no element carries it,
the reference is returned entirely unchanged (its previous handle survives,
it is not reset to unresolved). -/
theorem c2_revalidate_amended {α : Type} (asUuid : α → Uuid) (r : UuidRef)
    (data : List Nat) (h : Heap α)
    (hlive : ∀ i ∈ data, (hget h i).isSome = true) :
    ((∃ i ∈ data, (hget h i).map asUuid = some r.uuid) →
      ∃ i ∈ data, (hget h i).map asUuid = some r.uuid ∧
        (r.revalidate asUuid data h).get h = some i) ∧
    ((∀ i ∈ data, ¬((hget h i).map asUuid = some r.uuid)) →
      r.revalidate asUuid data h = r) := by
  constructor
  · intro hex
    rcases hex with ⟨i, hi, hu⟩
    have hfind : ∃ j, data.find? (fun j => (hget h j).map asUuid == some r.uuid) = some j := by
      rcases hf : data.find? (fun j => (hget h j).map asUuid == some r.uuid) with _ | j
      · rw [List.find?_eq_none] at hf
        exact absurd (by simpa using hu) (by simpa using hf i hi)
      · exact ⟨j, rfl⟩
    rcases hfind with ⟨j, hj⟩
    have hjprop := List.find?_eq_some.mp hj
    rcases hjprop with ⟨hpj, pre, post, hdata, _⟩
    have hjmem : j ∈ data := by rw [hdata]; simp
    refine ⟨j, hjmem, by simpa using hpj, ?_⟩
    unfold UuidRef.revalidate
    rw [hj]
    simp [UuidRef.get, hlive j hjmem]
  · intro hnone
    unfold UuidRef.revalidate
    have : data.find? (fun j => (hget h j).map asUuid == some r.uuid) = none := by
      rw [List.find?_eq_none]
      intro x hx
      simpa using hnone x hx
    rw [this]

/-- Claim C2 witness: in the collection `[7]`, allocation 7 holds the student
with identifier 5, and revalidating `c2Ref` makes `get` resolve to it. -/
theorem c2_revalidate_witness :
    ∃ i ∈ [7], (hget c2Heap i).map Student.as_uuid = some c2Ref.uuid ∧
      (c2Ref.revalidate Student.as_uuid [7] c2Heap).get c2Heap = some i :=
  (c2_revalidate_amended Student.as_uuid c2Ref [7] c2Heap (by decide)).1 (by decide)

/-- Claim C2 counterexample: the authoritative collection is empty, so no
element carries identifier 5, yet after `revalidate` the reference still
resolves (to its previously attached live allocation 7) instead of becoming
unresolved as the claim states. -/
theorem c2_revalidate_counterexample :
    (∀ i ∈ ([] : List Nat), ¬((hget c2Heap i).map Student.as_uuid = some c2Ref.uuid)) ∧
    (c2Ref.revalidate Student.as_uuid [] c2Heap).get c2Heap = some 7 := by
  constructor
  · intro i hi
    cases hi
  · rfl

/-- Claim C7 (amended): for EVERY event, `includes_time` and `includes`
satisfy the claimed interval characterizations, and no instant before the
event's start is ever included; the endpoint-inclusion consequence
(`t = start` and `t = start + duration` are included) holds for events with
nonnegative duration, while an event with negative duration contains no
instant at all. -/
theorem c7_event_includes_amended (e : Event) :
    (∀ t : Int, e.includes_time t = true ↔ (e.start ≤ t ∧ t ≤ e.start + e.duration)) ∧
    (∀ start duration : Int, e.includes start duration = true ↔
      (e.start ≤ start + duration ∧ start ≤ e.start + e.duration)) ∧
    (0 ≤ e.duration →
      e.includes_time e.start = true ∧ e.includes_time (e.start + e.duration) = true) ∧
    (e.duration < 0 → ∀ t : Int, e.includes_time t = false) ∧
    (∀ t : Int, t < e.start → e.includes_time t = false) := by
  refine ⟨fun t => ?_, fun s d => ?_, fun hd => ⟨?_, ?_⟩, fun hd t => ?_, fun t ht => ?_⟩ <;>
    simp only [Event.includes_time, Event.includes, Bool.and_eq_true, decide_eq_true_eq,
      ge_iff_le, Bool.and_eq_false_iff, decide_eq_false_iff_not] <;>
    omega

/-- Claim C7 witness: the conditional parts of the amended statement,
discharged at concrete events: the endpoints of `sampleEvent` (duration 60)
are included, `negEvent` (duration -1) contains no instant, and an instant
before `sampleEvent.start` is not included. -/
theorem c7_event_includes_witness :
    (sampleEvent.includes_time sampleEvent.start = true ∧
      sampleEvent.includes_time (sampleEvent.start + sampleEvent.duration) = true) ∧
    (∀ t : Int, negEvent.includes_time t = false) ∧
    sampleEvent.includes_time 50 = false :=
  ⟨(c7_event_includes_amended sampleEvent).2.2.1 (by decide),
   (c7_event_includes_amended negEvent).2.2.2.1 (by decide),
   (c7_event_includes_amended sampleEvent).2.2.2.2 50 (by decide)⟩

/-- Claim C7 counterexample: for an event of negative duration, the start
endpoint is not included, refuting the unconditional endpoint-inclusion part
of the claim (`t = e.start` would have to be included). -/
theorem c7_event_includes_counterexample :
    Event.includes_time { start := 0, duration := -1, data := UuidRef.null } 0 = false := by
  decide

/-- Claim C8: `apply_hard` evaluates the hard predicates in list order: it
succeeds exactly when every hard predicate passes, and returns `msg` exactly
when some predicate fails with `msg` while every predicate before it in the
list passes. -/
theorem apply_hard_eq_ok_iff (cs : Constraints) (w : World) (e : Exam)
    (room : Room) (time : Int) (chk : Bool) :
    cs.apply_hard w e room time chk = .ok () ↔
      cs.hard.findSome? (fun v => exceptErr (v.func w e room time chk)) = none := by
  unfold Constraints.apply_hard
  rcases hf : cs.hard.findSome? (fun v => exceptErr (v.func w e room time chk)) with _ | m <;>
    rw [hf] <;> simp

theorem apply_hard_eq_error_iff (cs : Constraints) (w : World) (e : Exam)
    (room : Room) (time : Int) (chk : Bool) (msg : String) :
    cs.apply_hard w e room time chk = .error msg ↔
      cs.hard.findSome? (fun v => exceptErr (v.func w e room time chk)) = some msg := by
  unfold Constraints.apply_hard
  rcases hf : cs.hard.findSome? (fun v => exceptErr (v.func w e room time chk)) with _ | m <;>
    rw [hf] <;> simp

/-- Claim C8: `apply_hard` evaluates the hard predicates in list order: it
succeeds exactly when every hard predicate passes, and returns `msg` exactly
when some predicate fails with `msg` while every predicate before it in the
list passes. -/
theorem c8_apply_hard_first_failure (cs : Constraints) (w : World) (e : Exam)
    (room : Room) (time : Int) (chk : Bool) :
    (cs.apply_hard w e room time chk = .ok () ↔
      ∀ hc ∈ cs.hard, hc.func w e room time chk = .ok ()) ∧
    (∀ msg, cs.apply_hard w e room time chk = .error msg ↔
      ∃ pre hc post, cs.hard = pre ++ hc :: post ∧
        hc.func w e room time chk = .error msg ∧
        ∀ hc2 ∈ pre, hc2.func w e room time chk = .ok ()) := by
  constructor
  · rw [apply_hard_eq_ok_iff, List.findSome?_eq_none_iff]
    constructor
    · intro hall hc hmem
      have := hall hc hmem
      rwa [exceptErr_eq_none] at this
    · intro hall hc hmem
      rw [exceptErr_eq_none]
      exact hall hc hmem
  · intro msg
    rw [apply_hard_eq_error_iff, List.findSome?_eq_some_iff]
    constructor
    · rintro ⟨pre, x, post, hl, hx, hpre⟩
      rw [exceptErr_eq_some] at hx
      exact ⟨pre, x, post, hl, hx, fun hc2 hmem => by
        have := hpre hc2 hmem
        rwa [exceptErr_eq_none] at this⟩
    · rintro ⟨pre, x, post, hl, hx, hpre⟩
      refine ⟨pre, x, post, hl, ?_, ?_⟩
      · rw [exceptErr_eq_some]
        exact hx
      · intro y hy
        rw [exceptErr_eq_none]
        exact hpre y hy

theorem examinerBookingLabel_ne_none_iff (w : World) (e : Exam) (b : Event) :
    examinerBookingLabel w e b ≠ none ↔
      b.data.uuid ≠ e.uuid ∧ (b.data.deref w.exams).isSome = true := by
  unfold examinerBookingLabel
  split
  next hb =>
    rw [beq_iff_eq] at hb
    simp [hb]
  next hb =>
    rw [beq_iff_eq] at hb
    constructor
    · intro hne
      refine ⟨hb, ?_⟩
      rcases hx : b.data.deref w.exams with _ | v
      · rw [hx] at hne
        exact absurd rfl hne
      · rfl
    · rintro ⟨_, hs⟩
      rcases hx : b.data.deref w.exams with _ | v
      · rw [hx] at hs
        exact absurd hs (by simp)
      · simp [hx]

theorem examinerBusyEntry_ne_none_iff (w : World) (e : Exam) (start : Int)
    (er : Option UuidRef) :
    examinerBusyEntry w e start er ≠ none ↔
      ∃ ref, er = some ref ∧ ∃ tch, ref.deref w.teachers = some tch ∧
        ∃ b ∈ tch.calendar.get_booked_from_to start e.duration,
          b.data.uuid ≠ e.uuid ∧ (b.data.deref w.exams).isSome = true := by
  rcases er with _ | ref
  · simp [examinerBusyEntry]
  · rcases hd : ref.deref w.teachers with _ | tch
    · unfold examinerBusyEntry
      simp only [hd]
      constructor
      · intro hne
        exact absurd rfl hne
      · rintro ⟨ref2, hr2, tch2, htch2, _⟩
        injection hr2 with hr2e
        subst hr2e
        rw [hd] at htch2
        exact absurd htch2 (by simp)
    · have hun : examinerBusyEntry w e start (some ref) =
          (if (List.filterMap (examinerBookingLabel w e)
              (tch.calendar.get_booked_from_to start e.duration)).length ≠ 0 then
            some ("\n" ++ tch.name.display ++ ": " ++ String.intercalate ", "
              (List.filterMap (examinerBookingLabel w e)
                (tch.calendar.get_booked_from_to start e.duration)))
          else none) := by
        unfold examinerBusyEntry
        simp only [hd]
      rw [hun]
      constructor
      · intro hne
        by_cases hlen : (List.filterMap (examinerBookingLabel w e)
            (tch.calendar.get_booked_from_to start e.duration)).length ≠ 0
        · have hnil : List.filterMap (examinerBookingLabel w e)
              (tch.calendar.get_booked_from_to start e.duration) ≠ [] := by
            intro hz
            rw [hz] at hlen
            exact hlen rfl
          rw [ne_eq, List.filterMap_eq_nil_iff] at hnil
          push_neg at hnil
          rcases hnil with ⟨b, hbmem, hbl⟩
          exact ⟨ref, rfl, tch, hd, b, hbmem, (examinerBookingLabel_ne_none_iff w e b).mp hbl⟩
        · rw [if_neg hlen] at hne
          exact absurd rfl hne
      · rintro ⟨ref2, hr2, tch2, htch2, b, hbmem, hbu, hbs⟩
        injection hr2 with hr2e
        subst hr2e
        rw [hd] at htch2
        injection htch2 with hte
        subst hte
        have hbl : examinerBookingLabel w e b ≠ none :=
          (examinerBookingLabel_ne_none_iff w e b).mpr ⟨hbu, hbs⟩
        have hlen : (List.filterMap (examinerBookingLabel w e)
            (tch.calendar.get_booked_from_to start e.duration)).length ≠ 0 := by
          intro hz
          rw [List.length_eq_zero, List.filterMap_eq_nil_iff] at hz
          exact hbl (hz b hbmem)
        rw [if_pos hlen]
        simp

/-- Claim C6 (amended): the examiner hard rule fails if and only if some
assigned, resolved examiner's calendar contains an overlapping booking that
carries a different exam identifier AND whose exam payload reference still
resolves; bookings with the candidate exam's own identifier, and bookings
whose payload reference is dangling, are both excluded from the check. -/
theorem c6_examiner_rule_amended (w : World) (e : Exam) (room : Room)
    (start : Int) (chk : Bool) :
    (∃ msg, examinerBusyRule.func w e room start chk = .error msg) ↔
      ∃ er ∈ e.examiners, ∃ ref, er = some ref ∧
        ∃ tch, ref.deref w.teachers = some tch ∧
          ∃ b ∈ tch.calendar.get_booked_from_to start e.duration,
            b.data.uuid ≠ e.uuid ∧ (b.data.deref w.exams).isSome = true := by
  have hstep : (∃ msg, examinerBusyRule.func w e room start chk = .error msg) ↔
      (e.examiners.filterMap (examinerBusyEntry w e start)).length ≠ 0 := by
    simp only [examinerBusyRule]
    constructor
    · rintro ⟨msg, hmsg⟩
      by_cases hlen : (e.examiners.filterMap (examinerBusyEntry w e start)).length ≠ 0
      · exact hlen
      · rw [if_neg hlen] at hmsg
        exact absurd hmsg (by simp)
    · intro hlen
      exact ⟨_, by rw [if_pos hlen]⟩
  rw [hstep]
  constructor
  · intro hlen
    have hnil : e.examiners.filterMap (examinerBusyEntry w e start) ≠ [] := by
      intro hz
      rw [hz] at hlen
      exact hlen rfl
    rw [ne_eq, List.filterMap_eq_nil_iff] at hnil
    push_neg at hnil
    rcases hnil with ⟨er, hermem, herl⟩
    exact ⟨er, hermem, (examinerBusyEntry_ne_none_iff w e start er).mp herl⟩
  · rintro ⟨er, hermem, hrest⟩
    have herl : examinerBusyEntry w e start er ≠ none :=
      (examinerBusyEntry_ne_none_iff w e start er).mpr hrest
    intro hz
    rw [List.length_eq_zero, List.filterMap_eq_nil_iff] at hz
    exact herl (hz er hermem)

/-- Claim C6 counterexample: in `c6World`, the assigned (and resolved)
examiner has an overlapping booking carrying a different exam identifier
(99 vs 5), yet the rule passes, because that booking's exam payload
reference is dangling — refuting the claimed "if and only if". -/
theorem c6_examiner_rule_counterexample :
    examinerBusyRule.func c6World c6Exam sampleRoom 100 false = .ok () ∧
    ∃ er ∈ c6Exam.examiners, ∃ ref, er = some ref ∧
      ∃ tch, ref.deref c6World.teachers = some tch ∧
        ∃ b ∈ tch.calendar.get_booked_from_to 100 c6Exam.duration,
          b.data.uuid ≠ c6Exam.uuid := by
  constructor
  · rfl
  · decide

/-- Claim C9: the required-tag hard rule (i) passes exactly when every
required tag of the exam appears among the room's tags, (ii) fails exactly
when some required tag is missing, (iii) on failure its message is built by
listing every missing required tag's name, and (iv) its verdict is the same
in normal and in already-committed (`is_check`) mode. -/
theorem c9_required_tags_rule (w : World) (e : Exam) (room : Room)
    (start : Int) (chk : Bool) :
    (requiredTagsRule.func w e room start chk = .ok () ↔
      ∀ tag ∈ e.tags, tag.required = true → room.tags.contains tag.name = true) ∧
    ((∃ msg, requiredTagsRule.func w e room start chk = .error msg) ↔
      ∃ tag ∈ e.tags, tag.required = true ∧ room.tags.contains tag.name = false) ∧
    (requiredTagsRule.func w e room start chk =
        .error ("the following required tags are missing from the room:" ++
          String.join ((missingRequiredNames e room).map (fun n => "\n - " ++ n))) ∨
      (requiredTagsRule.func w e room start chk = .ok () ∧
        missingRequiredNames e room = [])) ∧
    requiredTagsRule.func w e room start true = requiredTagsRule.func w e room start false := by
  have hm : e.tags.filterMap (fun tag =>
      if tag.required && !(room.tags.contains tag.name) then some ("\n - " ++ tag.name)
      else none) = (missingRequiredNames e room).map (fun n => "\n - " ++ n) := by
    rw [filterMap_ite_eq_map_filter]
    unfold missingRequiredNames
    rw [List.map_map]
    rfl
  have hcond : missingRequiredNames e room = [] ↔
      ∀ tag ∈ e.tags, tag.required = true → room.tags.contains tag.name = true := by
    unfold missingRequiredNames
    rw [List.map_eq_nil_iff, List.filter_eq_nil_iff]
    constructor
    · intro hall tag htag hreq
      have := hall tag htag
      rcases hc : room.tags.contains tag.name with _ | _
      · rw [hreq, hc] at this
        exact absurd rfl this
      · rfl
    · intro hall tag htag
      rcases hr : tag.required with _ | _
      · simp [hr]
      · have hc := hall tag htag hr
        simp [hr]
        simpa using hc
  have hfun : requiredTagsRule.func w e room start chk =
      (if ((missingRequiredNames e room).map (fun n => "\n - " ++ n)).length = 0
        then .ok ()
        else .error ("the following required tags are missing from the room:" ++
          String.join ((missingRequiredNames e room).map (fun n => "\n - " ++ n)))) := by
    unfold requiredTagsRule
    simp only [hm]
  by_cases hnil : missingRequiredNames e room = []
  · have hok : requiredTagsRule.func w e room start chk = .ok () := by
      rw [hfun, hnil]
      rfl
    refine ⟨?_, ?_, ?_, ?_⟩
    · rw [hok]
      simp only [true_iff]
      exact hcond.mp hnil
    · constructor
      · rintro ⟨msg, hmsg⟩
        rw [hok] at hmsg
        exact absurd hmsg (by simp)
      · rintro ⟨tag, htag, hreq, hcon⟩
        have := hcond.mp hnil tag htag hreq
        rw [this] at hcon
        exact absurd hcon (by simp)
    · exact Or.inr ⟨hok, hnil⟩
    · rfl
  · have hlen : ((missingRequiredNames e room).map (fun n => "\n - " ++ n)).length ≠ 0 := by
      intro hz
      rw [List.length_eq_zero, List.map_eq_nil_iff] at hz
      exact hnil hz
    have herr : requiredTagsRule.func w e room start chk =
        .error ("the following required tags are missing from the room:" ++
          String.join ((missingRequiredNames e room).map (fun n => "\n - " ++ n))) := by
      rw [hfun, if_neg hlen]
    refine ⟨?_, ?_, ?_, ?_⟩
    · rw [herr]
      constructor
      · intro hc
        exact absurd hc (by simp)
      · intro hall
        exact absurd (hcond.mpr hall) hnil
    · rw [herr]
      constructor
      · intro _
        have hne : ∃ tag ∈ e.tags, (fun tag => tag.required && !(room.tags.contains tag.name)) tag = true := by
          rcases hf : e.tags.filter (fun tag => tag.required && !(room.tags.contains tag.name)) with _ | ⟨x, xs⟩
          · exfalso
            apply hnil
            unfold missingRequiredNames
            rw [hf]
            rfl
          · have hx : x ∈ e.tags.filter (fun tag => tag.required && !(room.tags.contains tag.name)) := by
              rw [hf]
              exact List.mem_cons_self x xs
            rw [List.mem_filter] at hx
            exact ⟨x, hx.1, hx.2⟩
        rcases hne with ⟨tag, htag, hp⟩
        rw [Bool.and_eq_true, Bool.not_eq_true'] at hp
        exact ⟨tag, htag, hp.1, hp.2⟩
      · intro _
        exact ⟨_, rfl⟩
    · exact Or.inl herr
    · rfl

/-- Claim C10: when the exam weak reference does not upgrade, `book_exam`
is a complete no-op: the world (every calendar, every pairing) is unchanged
and no error is produced. -/
theorem c10_book_exam_dead_ref_noop (w : World) (eref : UuidRef) (rid : Nat)
    (t : Int) (hdead : eref.get w.exams = none) :
    book_exam w eref rid t = w := by
  unfold book_exam
  rw [hdead]

/-- Claim C10 witness: booking through a reference to a removed exam leaves
the populated world `c10World` (a student, a room) entirely unchanged. -/
theorem c10_book_exam_witness : book_exam c10World c10Ref 1 100 = c10World :=
  c10_book_exam_dead_ref_noop c10World c10Ref 1 100 (by decide)

theorem solveGo_outcomes_aux (cs : Constraints)
    (mu : World → Nat → Nat → TimetableLesson → World)
    (rooms : List Nat) (times : List TimetableLesson) (day : Int) :
    ∀ n : Nat, ∀ values : List Nat, ∀ w : World, ∀ finished : List Nat,
    values.length ≤ n →
    (∀ rem fin, solveGo cs mu rooms times day w values finished
        = some (.ok { pending := rem, finished_exams := fin }) →
      rem = [] ∧ List.Perm fin (finished ++ values)) ∧
    (∀ rem fin, solveGo cs mu rooms times day w values finished
        = some (.error { pending := rem, finished_exams := fin }) →
      rem ≠ [] ∧ List.Perm (fin ++ rem) (finished ++ values)) := by
  have hbase : ∀ w finished,
      (∀ rem fin, solveGo cs mu rooms times day w [] finished
          = some (.ok { pending := rem, finished_exams := fin }) →
        rem = [] ∧ List.Perm fin (finished ++ ([] : List Nat))) ∧
      (∀ rem fin, solveGo cs mu rooms times day w [] finished
          = some (.error { pending := rem, finished_exams := fin }) →
        rem ≠ [] ∧ List.Perm (fin ++ rem) (finished ++ ([] : List Nat))) := by
    intro w finished
    rw [solveGo_nil]
    constructor
    · intro rem fin hok
      have h2 : ([] : List Nat) = rem ∧ finished = fin := by simpa using hok
      rw [← h2.1, ← h2.2]
      simp
    · intro rem fin herr
      exact absurd herr (by simp)
  intro n
  induction n with
  | zero =>
    intro values w finished hlen
    have hv : values = [] := List.length_eq_zero.mp (Nat.le_zero.mp hlen)
    subst hv
    exact hbase w finished
  | succ n ihn =>
    intro values w finished hlen
    by_cases hv : values = []
    · subst hv
      exact hbase w finished
    · rcases hbest : pickBest cs w day (survivors cs w day values rooms times) with ⟨s, i, copt⟩
      rcases copt with _ | c
      · rw [solveGo_pick_none cs mu rooms times day w values finished hv s i hbest]
        constructor
        · intro rem fin hok
          exact absurd hok (by simp)
        · intro rem fin herr
          have h2 : values = rem ∧ finished = fin := by simpa using herr
          rw [← h2.1, ← h2.2]
          exact ⟨hv, List.Perm.refl _⟩
      · have hspec := pickBest_some_spec cs w day _ c (by rw [hbest])
        have heq2 : ((s, i, some c) : Int × Nat × Option Cand)
            = (scoreOf cs w day c, c.i, some c) := by
          rw [← hbest]
          exact hspec.2.2
        have hi_eq : i = c.i := by
          have := congrArg (fun p : Int × Nat × Option Cand => p.2.1) heq2
          simpa using this
        rcases hspec.1 with ⟨pre, post, hsurv, _, _⟩
        have hcmem : c ∈ survivors cs w day values rooms times := by
          rw [hsurv]
          simp
        obtain ⟨hgetv?, hrid?, _⟩ := candTriples_mem (survivors_subset hcmem)
        obtain ⟨hilt, hgetv⟩ := List.get?_eq_some.mp hgetv?
        subst hi_eq
        rw [solveGo_pick_some cs mu rooms times day w values finished hv s c.i c hbest
          hilt c.rid hrid?]
        have hlen2 : (values.eraseIdx c.i).length ≤ n := by
          rw [List.length_eraseIdx, if_pos hilt]
          omega
        have hih := ihn (values.eraseIdx c.i)
          (mu w (values.get ⟨c.i, hilt⟩) c.rid c.t)
          (finished ++ [values.get ⟨c.i, hilt⟩]) hlen2
        have hperm : List.Perm ((finished ++ [values.get ⟨c.i, hilt⟩]) ++ values.eraseIdx c.i)
            (finished ++ values) := by
          rw [List.append_assoc]
          exact List.Perm.append_left finished (get_cons_eraseIdx_perm values c.i hilt)
        constructor
        · intro rem fin hok
          obtain ⟨hrem, hp⟩ := hih.1 rem fin hok
          exact ⟨hrem, hp.trans hperm⟩
        · intro rem fin herr
          obtain ⟨hrem, hp⟩ := hih.2 rem fin herr
          exact ⟨hrem, hp.trans hperm⟩

/-- Claim C4: (i) whenever `solve`'s loop returns `Ok`, the pending
remainder is empty and the finished list is (a permutation of) the prior
accumulator plus every formerly-pending exam; (ii) whenever it returns
`Err`, the pending remainder is nonempty and together with the finished
list accounts exactly for the accumulator plus the formerly-pending exams;
(iii) an emptied pending set returns `Ok` with the commits so far; (iv) in
any iteration in which no candidate passes `apply_hard` (the survivor list
is empty), the loop returns `Err` carrying exactly the exams committed in
prior iterations and leaving the unscheduled remainder pending; and (v)
`solve` is the loop started with an empty finished accumulator. -/
theorem c4_solve_outcomes (cs : Constraints)
    (mu : World → Nat → Nat → TimetableLesson → World)
    (rooms : List Nat) (times : List TimetableLesson) (day : Int) :
    (∀ w values finished rem fin,
      solveGo cs mu rooms times day w values finished
          = some (.ok { pending := rem, finished_exams := fin }) →
        rem = [] ∧ List.Perm fin (finished ++ values)) ∧
    (∀ w values finished rem fin,
      solveGo cs mu rooms times day w values finished
          = some (.error { pending := rem, finished_exams := fin }) →
        rem ≠ [] ∧ List.Perm (fin ++ rem) (finished ++ values)) ∧
    (∀ w finished, solveGo cs mu rooms times day w [] finished
        = some (.ok { pending := [], finished_exams := finished })) ∧
    (∀ w values finished, values ≠ [] →
      survivors cs w day values rooms times = [] →
      solveGo cs mu rooms times day w values finished
        = some (.error { pending := values, finished_exams := finished })) ∧
    (∀ w values timetable, solve cs mu w values rooms timetable day
        = solveGo cs mu rooms timetable.times day w values []) := by
  refine ⟨?_, ?_, ?_, ?_, ?_⟩
  · intro w values finished rem fin
    exact (solveGo_outcomes_aux cs mu rooms times day values.length values w finished
      (Nat.le_refl _)).1 rem fin
  · intro w values finished rem fin
    exact (solveGo_outcomes_aux cs mu rooms times day values.length values w finished
      (Nat.le_refl _)).2 rem fin
  · intro w finished
    exact solveGo_nil cs mu rooms times day w finished
  · intro w values finished hv hsurv
    apply solveGo_pick_none cs mu rooms times day w values finished hv intMin 0
    rw [hsurv]
    rfl
  · intro w values timetable
    rfl

/-- Claim C4 witness: with one pending exam and no rooms at all, no
candidate exists, the survivor list is empty, and the loop returns `Err`
with the exam still pending and nothing finished. -/
theorem c4_solve_outcomes_witness :
    solveGo passCs idMutator [] [sampleLesson] 0 c3World [0] []
      = some (.error { pending := [0], finished_exams := [] }) :=
  (c4_solve_outcomes passCs idMutator [] [sampleLesson] 0).2.2.2.1 c3World [0] []
    (by decide) (by rfl)

/-- Claim C3 (amended): in each iteration of `solve`, among the candidates
that pass `apply_hard`, the committed candidate is the earliest one (in
exam-then-room-then-slot enumeration order) whose `apply_soft` score is
maximal, and a later candidate replaces the current pick only on a strictly
greater score — PROVIDED some surviving candidate scores strictly above
`i32::MIN` (the fold's initial accumulator).  When every surviving
candidate scores exactly `i32::MIN` (or none survives), no candidate is
committed and the iteration aborts with `Err`. -/
theorem c3_selection_amended (cs : Constraints)
    (mu : World → Nat → Nat → TimetableLesson → World)
    (rooms : List Nat) (times : List TimetableLesson) (day : Int)
    (w : World) (values finished : List Nat) (hv : values ≠ []) :
    SelectionSpec cs mu rooms times day w values finished := by
  unfold SelectionSpec
  refine ⟨pickBest_none_iff cs w day _, ?_, ?_⟩
  · intro hnone
    rcases hp : pickBest cs w day (survivors cs w day values rooms times) with ⟨s, i, copt⟩
    rw [hp] at hnone
    have hcn : copt = none := by simpa using hnone
    subst hcn
    exact solveGo_pick_none cs mu rooms times day w values finished hv s i hp
  · intro c hsome
    have hspec := pickBest_some_spec cs w day _ c hsome
    have hfull := hspec.2.2
    refine ⟨hspec.1, hspec.2.1, by rw [hfull], by rw [hfull], ?_⟩
    rcases hspec.1 with ⟨pre, post, hsurv, _, _⟩
    have hcmem : c ∈ survivors cs w day values rooms times := by
      rw [hsurv]
      simp
    obtain ⟨hgetv?, hrid?, _⟩ := candTriples_mem (survivors_subset hcmem)
    obtain ⟨hilt, hgetv⟩ := List.get?_eq_some.mp hgetv?
    refine ⟨hilt, c.rid, hrid?, hgetv, ?_⟩
    have hstep := solveGo_pick_some cs mu rooms times day w values finished hv
      (scoreOf cs w day c) c.i c hfull hilt c.rid hrid?
    rw [hgetv] at hstep
    exact hstep

/-- Claim C3 witness: the amended selection property at a concrete input
(one exam, one room, one slot, no constraints). -/
theorem c3_selection_witness :
    SelectionSpec passCs idMutator [1] [sampleLesson] 0 c3World [0] [] :=
  c3_selection_amended passCs idMutator [1] [sampleLesson] 0 c3World [0] [] (by decide)

/-- Claim C3 counterexample: with a soft constraint that scores every
candidate exactly `i32::MIN`, a candidate survives the hard filter (so the
claim's "earliest highest-scoring candidate" exists), yet no candidate is
committed: the iteration returns `Err` with nothing scheduled, because the
fold's initial accumulator already holds `i32::MIN` and a candidate
replaces it only on a strictly greater score. -/
theorem c3_selection_counterexample :
    survivors minSoftCs c3World 0 [0] [1] [sampleLesson] ≠ [] ∧
    solveGo minSoftCs idMutator [1] [sampleLesson] 0 c3World [0] []
      = some (.error { pending := [0], finished_exams := [] }) := by
  constructor
  · decide
  · exact solveGo_pick_none minSoftCs idMutator [1] [sampleLesson] 0 c3World [0] []
      (by decide) intMin 0 (by decide)

/-- Claim C5 (amended): for an exam whose reference resolves and a live
room, booking and then unbooking with the same room and start time restores
the students, teachers and rooms heaps (hence every touched calendar)
exactly, PROVIDED none of the touched calendars (the room's, and the
calendar of each resolved examinee and examiner) already contains an event
agreeing with the new booking on (start, duration, exam identifier).
Without that proviso the unbooking removes the first key-equal event, which
need not be the one the booking added. -/
theorem c5_book_unbook_amended (w : World) (eref : UuidRef) (rid : Nat)
    (start_time : Int) (eid : Nat) (exam : Exam) (room : Room)
    (hget1 : eref.get w.exams = some eid)
    (hexam : hget w.exams eid = some exam)
    (hroom : hget w.rooms rid = some room)
    (hs : ∀ p ∈ w.students,
      (∃ r ∈ exam.examinees, r.get w.students = some p.1) →
      calendarKeyFree p.2.calendar (Event.new start_time exam.duration eref))
    (ht : ∀ p ∈ w.teachers,
      (∃ r ∈ exam.examiners.filterMap (fun x => x), r.get w.teachers = some p.1) →
      calendarKeyFree p.2.calendar (Event.new start_time exam.duration eref))
    (hr : ∀ p ∈ w.rooms, p.1 = rid →
      calendarKeyFree p.2.calendar (Event.new start_time exam.duration eref)) :
    (unbook_exam (book_exam w eref rid start_time) eref rid start_time).students
        = w.students ∧
    (unbook_exam (book_exam w eref rid start_time) eref rid start_time).teachers
        = w.teachers ∧
    (unbook_exam (book_exam w eref rid start_time) eref rid start_time).rooms
        = w.rooms := by
  have hbook : book_exam w eref rid start_time = {
      students := (foldRefUpdates
        (fun s => { s with calendar := s.calendar.add_event (Event.new start_time exam.duration eref) })
        exam.examinees w.students)
      teachers := (foldOptRefUpdates
        (fun t => { t with calendar := t.calendar.add_event (Event.new start_time exam.duration eref) })
        exam.examiners w.teachers)
      exams := (hset w.exams eid
        (fun e => { e with pairing := some (UuidRef.new rid room.uuid, start_time) }))
      rooms := (hset w.rooms rid
        (fun r => { r with calendar := r.calendar.add_event (Event.new start_time exam.duration eref) })) } := by
    simp only [book_exam, hget1, hexam, hroom]
  have hget1' : eref.get (book_exam w eref rid start_time).exams = some eid := by
    simp only [hbook]
    rw [get_hset, hget1]
  have hexam1 : hget (book_exam w eref rid start_time).exams eid
      = some ({ exam with
          pairing := some (UuidRef.new rid room.uuid, start_time) }) := by
    simp only [hbook]
    rw [hget_hset, if_pos rfl, hexam]
    rfl
  have hunbook : unbook_exam (book_exam w eref rid start_time) eref rid start_time = {
      students := (foldRefUpdates
        (fun s => { s with calendar := s.calendar.remove_event (Event.new start_time exam.duration eref) })
        exam.examinees (book_exam w eref rid start_time).students)
      teachers := (foldOptRefUpdates
        (fun t => { t with calendar := t.calendar.remove_event (Event.new start_time exam.duration eref) })
        exam.examiners (book_exam w eref rid start_time).teachers)
      exams := ((book_exam w eref rid start_time).exams)
      rooms := (hset (book_exam w eref rid start_time).rooms rid
        (fun r => { r with calendar := r.calendar.remove_event (Event.new start_time exam.duration eref) })) } := by
    simp only [unbook_exam, hget1', hexam1]
  refine ⟨?_, ?_, ?_⟩
  · rw [hunbook]
    simp only [hbook]
    exact foldRefUpdates_remove_add _ _ _ _
      (fun p hp hex k => student_remove_add_iter _ p.2 (hs p hp hex) k)
  · rw [hunbook]
    simp only [hbook]
    rw [foldOptRefUpdates_eq, foldOptRefUpdates_eq]
    exact foldRefUpdates_remove_add _ _ _ _
      (fun p hp hex k => teacher_remove_add_iter _ p.2 (ht p hp hex) k)
  · rw [hunbook]
    simp only [hbook]
    rw [hset_hset_same]
    apply hset_eq_self
    intro p hp hpi
    have hca := calendar_remove_add (Event.new start_time exam.duration eref) p.2.calendar (hr p hp hpi)
    show ({ p.2 with calendar := (p.2.calendar.add_event (Event.new start_time exam.duration eref)).remove_event (Event.new start_time exam.duration eref) }) = p.2
    rw [hca]

/-- Claim C5 counterexample: the exam reference resolves, but the room's
calendar already holds an event with the same (start, duration, exam
identifier) key (a stale booking with a dangling payload handle).  Booking
then unbooking removes the stale event, not the new one, so the room's
calendar is NOT restored to its pre-booking state. -/
theorem c5_book_unbook_counterexample :
    c5Ref.get c5World.exams = some 0 ∧
    (unbook_exam (book_exam c5World c5Ref 1 100) c5Ref 1 100).rooms ≠ c5World.rooms := by
  constructor
  · rfl
  · decide

/-- Claim C5 witness: the amended statement at a concrete world with one
examinee, one examiner, and all calendars initially empty. -/
theorem c5_book_unbook_witness :
    (unbook_exam (book_exam c5WitnessWorld c5WitnessRef 1 100) c5WitnessRef 1 100).students
        = c5WitnessWorld.students ∧
    (unbook_exam (book_exam c5WitnessWorld c5WitnessRef 1 100) c5WitnessRef 1 100).teachers
        = c5WitnessWorld.teachers ∧
    (unbook_exam (book_exam c5WitnessWorld c5WitnessRef 1 100) c5WitnessRef 1 100).rooms
        = c5WitnessWorld.rooms :=
  c5_book_unbook_amended c5WitnessWorld c5WitnessRef 1 100 0 c5Exam sampleRoom
    (by decide) (by decide) (by decide) (by decide) (by decide) (by decide)

